import Mathlib

/-!
Verification of the Jejemonly text-normalization core.

This file gives a shallow embedding, in Lean, of the Python modules under
`Jejemonly/J3jemonly/` — `edit_distance.py`, `fuzzy_matcher.py`,
`tokenizer.py`, `lemmatizer.py`, `lexicon_manager.py` and
`jejemon_normalizer.py` — and proves the documented properties of the
pipeline against those definitions.

Modelling conventions:
* Python strings are Lean `String`s (lists of characters); the character
  classes of the regular expressions involved (`\w`, `\d`, `[A-Z]`, case
  folding under `re.IGNORECASE`, `str.lower`, `str.isdigit`) are modelled
  over ASCII.
* Python floats are modelled as exact rationals (`ℚ`).
* The rule tables loaded from JSON resources at construction time
  (dictionary, character variants, canonical word list, context rules) are
  parameters of the embedding, gathered in `LexState` / `NormState`;
  Python `dict`s become association lists in insertion order.
* Python truthiness tests on an optional lexicon value (`if normal_word:`)
  are modelled by `truthyGet`, which treats a mapping to the empty string
  like an absent mapping, exactly as the code does.
-/

namespace Jejemonly

/-- ASCII lowercasing of a string, as `str.lower` does for ASCII text. -/
def lowerStr (s : String) : String := String.mk (s.data.map Char.toLower)

/-! ### EditDistance (`edit_distance.py`)

`EditDistance.calculate` is the rolling-row Levenshtein loop of the source;
`lev` is the textbook recursive edit distance used as the specification the
loop is proved against. -/
/-- Inner loop of `EditDistance.calculate`: one pass over `s2` building the
values appended to `current_row`.  `prev` walks along `previous_row`
(providing `previous_row[j]` and `previous_row[j+1]`), `left` is the last
value appended to `current_row`. -/
def rowStep (c1 : Char) : List Char → List Nat → Nat → List Nat
  | [], _, _ => []
  | c2 :: cs, p0 :: p1 :: ps, left =>
    let v := min (p1 + 1) (min (left + 1) (p0 + (if c1 = c2 then 0 else 1)))
    v :: rowStep c1 cs (p1 :: ps) v
  | _ :: _, _, _ => []

/-- Outer loop of `EditDistance.calculate`: `for i, c1 in enumerate(s1)`,
where `prev` is `previous_row` and `i` the number of characters of `s1`
already consumed. -/
def outerLoop (s2 : List Char) : List Char → List Nat → Nat → List Nat
  | [], prev, _ => prev
  | c1 :: cs, prev, i => outerLoop s2 cs ((i + 1) :: rowStep c1 s2 prev (i + 1)) (i + 1)

/-- Body of `EditDistance.calculate` after the initial swap: return
`len(s1)` when `s2` is empty, else run the DP and take the last entry of
the final row (`previous_row[-1]`). -/
def calcCore (s1 s2 : List Char) : Nat :=
  if s2.length = 0 then s1.length
  else (outerLoop s2 s1 (List.range (s2.length + 1)) 0).getLastD 0

/-- `EditDistance.calculate` on character lists.  The source's
`if len(s1) < len(s2): return calculate(s2, s1)` recursive call is unfolded
once (the swapped call immediately takes the non-swap branch), keeping the
definition structurally computable. -/
def calcList (s1 s2 : List Char) : Nat :=
  if s1.length < s2.length then calcCore s2 s1 else calcCore s1 s2

/-- Reference recursive Levenshtein distance (unit costs). -/
def lev : List Char → List Char → Nat
  | [], ys => ys.length
  | x :: xs, [] => (x :: xs).length
  | x :: xs, y :: ys =>
    min (lev xs ys + (if x = y then 0 else 1))
      (min (lev (x :: xs) ys + 1) (lev xs (y :: ys) + 1))
termination_by a b => a.length + b.length
decreasing_by all_goals simp_wf <;> omega

/-- The row the DP maintains, specified: walking the not-yet-consumed part
`r` of `s2` while `ys` is the reversal of the consumed part, with `a` the
reversal of the consumed part of `s1`. -/
def rowAux (a : List Char) : List Char → List Char → List Nat
  | ys, [] => [lev a ys]
  | ys, c :: r => lev a ys :: rowAux a (c :: ys) r

namespace EditDistance

/-- `EditDistance.calculate(s1, s2)`: Levenshtein distance. -/
def calculate (s1 s2 : String) : Nat := calcList s1.data s2.data

/-- `EditDistance.similarity(s1, s2)`: `1.0` when both strings are empty
(`if not s1 and not s2`), else `1.0 - distance / max_len` (with the
redundant `max_len == 0` guard of the source). -/
def similarity (s1 s2 : String) : ℚ :=
  if s1 = "" ∧ s2 = "" then 1
  else
    let maxLen := max s1.length s2.length
    if maxLen = 0 then 1
    else 1 - (calculate s1 s2 : ℚ) / (maxLen : ℚ)

end EditDistance

namespace FuzzyMatcher

/-! ### FuzzyMatcher (`fuzzy_matcher.py`) -/
/-- One iteration of the `find_best_match` loop: update the running best
only when the candidate's similarity is strictly greater. -/
def fbmStep (word : String) (best : String × ℚ) (c : String) : String × ℚ :=
  let score := EditDistance.similarity word c
  if score > best.2 then (c, score) else best

/-- `FuzzyMatcher.find_best_match(word, candidates)`: linear scan starting
from `("", 0.0)`. -/
def find_best_match (word : String) (candidates : List String) : String × ℚ :=
  candidates.foldl (fbmStep word) ("", 0)

end FuzzyMatcher

/-! ### Tokenizer (`tokenizer.py`)

`Tokenizer.tokenize` runs `re.findall(r"\b[\w@#$+!\']+\b", text.lower())`.
The character class is `\w` (word characters) plus `@#$+!'`; every
character outside the class is a non-word character.  A word boundary
`\b` holds between a word and a non-word character (or at the ends of the
string next to a word character).  Hence a match must lie inside one
maximal run of class characters; within a run, the leftmost-longest match
starts at the run's first word character and, after greedy backtracking to
a final boundary, ends at the run's last word character; a run without a
word character yields no match, and the stripped trailing part of a run
(all non-word) can never host a second match.  `tokenize` is therefore
embedded as: split the lower-cased text into maximal class runs and cut
each run to the span from its first to its last word character. -/
/-- ASCII `\w`: letters, digits, underscore. -/
def isWordChar (c : Char) : Bool := c.isAlphanum || c = '_'

/-- The token character class `[\w@#$+!\']`. -/
def isClassChar (c : Char) : Bool :=
  isWordChar c || c = '@' || c = '#' || c = '$' || c = '+' || c = '!' || c = '\''

/-- Maximal runs of class characters; `acc` is the current run, reversed. -/
def classRunsAux : List Char → List Char → List (List Char)
  | [], acc => if acc = [] then [] else [acc.reverse]
  | c :: cs, acc =>
    if isClassChar c then classRunsAux cs (c :: acc)
    else if acc = [] then classRunsAux cs [] else acc.reverse :: classRunsAux cs []

def classRuns (cs : List Char) : List (List Char) := classRunsAux cs []

/-- Cut a run of class characters to the span from its first to its last
word character (the effect of the two `\b` anchors); `none` when the run
has no word character. -/
def trimRun (run : List Char) : Option (List Char) :=
  let t := ((run.dropWhile fun c => !isWordChar c).reverse.dropWhile
    fun c => !isWordChar c).reverse
  if t = [] then none else some t

/-- `Tokenizer.tokenize(text)` on character lists. -/
def tokenizeL (cs : List Char) : List (List Char) :=
  (classRuns (cs.map Char.toLower)).filterMap trimRun

/-- `Tokenizer.tokenize(text)`. -/
def tokenize (text : String) : List String :=
  (tokenizeL text.data).map String.mk

/-- `' '.join(tokens)` on character lists. -/
def joinSp : List (List Char) → List Char
  | [] => []
  | [t] => t
  | t :: t2 :: ts => t ++ ' ' :: joinSp (t2 :: ts)

/-- `Tokenizer.detokenize(tokens)`: join with single spaces. -/
def detokenize (tokens : List String) : String :=
  String.mk (joinSp (tokens.map String.data))

/-- The invariant satisfied by every token `tokenize` produces: nonempty,
all characters in the token class and lower-case-fixed, first and last
character a word character. -/
def tokenInv (t : List Char) : Bool :=
  !t.isEmpty && t.all isClassChar && isWordChar (t.headD ' ') &&
    isWordChar (t.getLastD ' ') && t.map Char.toLower == t

/-! ### Generic string routines shared by the remaining modules

`replaceList eqc pat new cs` models `str.replace` (with `eqc` plain
character equality) and `re.sub(re.escape(pat), new, cs, re.IGNORECASE)`
(with `eqc` comparing lower-cased characters): every non-overlapping
occurrence, scanned left to right, is replaced.  An empty pattern inserts
`new` at every position, as Python does. -/
/-- If `pat` matches a prefix of `cs` under `eqc`, return the rest. -/
def chopMatch (eqc : Char → Char → Bool) : List Char → List Char → Option (List Char)
  | [], cs => some cs
  | _ :: _, [] => none
  | p :: ps, c :: cs => if eqc p c then chopMatch eqc ps cs else none

/-- Fuel-driven replacement loop; `fuel` starts at `cs.length`, which
suffices because a non-empty pattern consumes at least one character. -/
def replaceGo (eqc : Char → Char → Bool) (pat new : List Char) : Nat → List Char → List Char
  | 0, cs => cs
  | fuel + 1, cs =>
    match cs with
    | [] => []
    | c :: rest =>
      match chopMatch eqc pat cs with
      | some rem => new ++ replaceGo eqc pat new fuel rem
      | none => c :: replaceGo eqc pat new fuel rest

def replaceList (eqc : Char → Char → Bool) (pat new cs : List Char) : List Char :=
  if pat = [] then new ++ cs.foldr (fun c acc => c :: (new ++ acc)) []
  else replaceGo eqc pat new cs.length cs

/-- Substring containment (Python's `in` on strings). -/
def containsSub (pat : List Char) : List Char → Bool
  | [] => pat.isEmpty
  | c :: cs => (chopMatch (fun a b => a == b) pat (c :: cs)).isSome || containsSub pat cs

/-- Case-sensitive `str.replace`. -/
def replaceCS (pat new s : String) : String :=
  String.mk (replaceList (fun a b => a == b) pat.data new.data s.data)

/-- Case-insensitive replacement, `re.sub(re.escape(pat), new, s, re.IGNORECASE)`. -/
def replaceCI (pat new s : String) : String :=
  String.mk (replaceList (fun a b => a.toLower == b.toLower) pat.data new.data s.data)

/-! ### LexiconManager (`lexicon_manager.py`)

The rule tables are loaded from JSON/text resources at construction; the
embedding takes them as a parameter.  `jejemonToNormal`,
`commonReplacements` and `variantToLetter` are Python dicts in insertion
order (association lists; `variantToLetter` is the derived reverse index
`variant_to_letter`), `wordsSet` the canonical word set (stored
lower-cased, as `load_words_txt` lower-cases each line). -/
structure LexState where
  jejemonToNormal : List (String × String)
  commonReplacements : List (String × String)
  variantToLetter : List (String × String)
  wordsSet : List String

/-- `LexiconManager.get_normal_word(w)`: `jejemon_to_normal.get(w.lower())`. -/
def get_normal_word (lex : LexState) (w : String) : Option String :=
  lex.jejemonToNormal.lookup (lowerStr w)

/-- Python truthiness of an optional lexicon value: `None` and the empty
string are falsy. -/
def pyTruthy : Option String → Bool
  | some v => !(v == "")
  | none => false

/-- Collapse a falsy optional value to `none`. -/
def truthyOpt : Option String → Option String
  | some v => if v = "" then none else some v
  | none => none

/-- `get_normal_word` guarded by the `if normal_word:` truthiness test the
callers apply. -/
def truthyGet (lex : LexState) (w : String) : Option String :=
  truthyOpt (get_normal_word lex w)

/-- `LexiconManager.is_in_words_txt(w)`: `w.lower() in words_set`. -/
def is_in_words_txt (lex : LexState) (w : String) : Bool :=
  lex.wordsSet.contains (lowerStr w)

/-- `LexiconManager.get_all_jejemon_words()`: the slang keys, in order. -/
def get_all_jejemon_words (lex : LexState) : List String :=
  lex.jejemonToNormal.map Prod.fst

/-- Stable insertion (descending variant length): the new pair goes in
front of the first entry whose variant is not longer. -/
def insVariant (x : String × String) : List (String × String) → List (String × String)
  | [] => [x]
  | y :: ys => if y.1.length ≤ x.1.length then x :: y :: ys else y :: insVariant x ys

/-- `sorted(variant_to_letter.keys(), key=len, reverse=True)` (a stable
descending sort), carrying each variant's base letter along. -/
def sortVariants : List (String × String) → List (String × String)
  | [] => []
  | x :: xs => insVariant x (sortVariants xs)

/-- `LexiconManager.apply_character_replacements(word)`: longest variants
first; a variant equal to its base is skipped; a single-character variant
is replaced case-insensitively everywhere; a longer variant only rewrites
the word when `word.lower()` equals the variant; finally every
`common_replacements` entry is applied as a case-insensitive substring
replacement. -/
def apply_character_replacements (lex : LexState) (word : String) : String :=
  let r := (sortVariants lex.variantToLetter).foldl (fun r vb =>
    if vb.1 = vb.2 then r
    else if vb.1.length = 1 then replaceCI vb.1 vb.2 r
    else if lowerStr r = vb.1 then vb.2 else r) word
  lex.commonReplacements.foldl (fun r p => replaceCI p.1 p.2 r) r

/-! ### Lemmatizer (`lemmatizer.py`) -/
/-- `prefix_rules`: the Python dict literal with its duplicate keys
resolved the way Python resolves them — a key keeps its first position and
its last value (`naka ↦ [naka, ka]`, `nai ↦ [nai, i]`). -/
def prefixRules : List (String × List String) :=
  [("nag", ["nag", "mag"]), ("naka", ["naka", "ka"]), ("nai", ["nai", "i"]),
   ("napa", ["napa", "mapa"]), ("naging", ["naging", "maging"]),
   ("naki", ["naki", "maki"]), ("nang", ["nang", "mang"]), ("na", ["na", "ma"])]

/-- `suffix_rules` keys, in order. -/
def suffixRules : List String := ["ing", "an", "in", "ng", "han", "hin", "on", "un"]

/-- The prefix loop: strip the first matching key (the alternatives list
is never consulted) and stop. -/
def stripPre : List (String × List String) → String → String
  | [], w => w
  | pr :: rest, w =>
    if pr.1.data.isPrefixOf w.data then String.mk (w.data.drop pr.1.length)
    else stripPre rest w

/-- The suffix loop: strip the first suffix that matches and leaves at
least one character (`len(word) > len(suffix)`), and stop. -/
def stripSuf : List String → String → String
  | [], w => w
  | s :: rest, w =>
    if s.data.isSuffixOf w.data && s.length < w.length then
      String.mk (w.data.take (w.length - s.length))
    else stripSuf rest w

/-- `Lemmatizer.lemmatize(word)`. -/
def lemmatize (word : String) : String :=
  let w1 := stripPre prefixRules word
  let w2 := stripSuf suffixRules w1
  if w2.length < 2 then word else w2

/-! ### Normalizer (`jejemon_normalizer.py`) -/
/-- The `meaningful_punctuation` set (membership only). -/
def meaningfulPunct : List Char :=
  ['\'', '"', '-', '_', '.', '!', '?', ',', ';', ':', '+',
   '(', ')', '[', ']', '{', '}', '/', '\\', '|', '@', '#', '$', '%']

/-- The `meaningful_patterns` list of `_evaluate_punctuation_value`,
including its redundant duplicate entries. -/
def punctPats : List (String × String) :=
  [("'s", "s"), ("'t", "t"), ("'re", "re"), ("'ve", "ve"), ("'ll", "ll"),
   ("'d", "d"), ("'m", "m"), ("'re", "re"), ("'", ""), ("`", ""), ("'", "")]

/-- Strip the contraction markers: sequentially apply each pattern (the
`if punct in modified_word` test is Python's redundant guard around
`str.replace`). -/
def stripMarkers (pats : List (String × String)) (w : String) : String :=
  pats.foldl (fun m pr => if containsSub pr.1.data m.data then replaceCS pr.1 pr.2 m else m) w

/-- `JejemonNormalizer._evaluate_punctuation_value(word)`. -/
def evaluate_punctuation_value (lex : LexState) (word : String) : String × Bool :=
  if !(meaningfulPunct.any fun p => word.data.contains p) then (word, false)
  else
    let modified := stripMarkers punctPats word
    let om := get_normal_word lex word
    let mm := get_normal_word lex modified
    if pyTruthy om && !pyTruthy mm then (om.getD "", false)
    else if pyTruthy mm && !pyTruthy om then (mm.getD "", true)
    else if pyTruthy om && pyTruthy mm then (mm.getD "", true)
    else (word, false)

/-! Regex matchers of `_should_apply_character_replacement`, over ASCII.
Each character class of these anchored patterns is disjoint from the
literal separators that follow it, so greedy matching consumes exactly the
maximal homogeneous run and the patterns are decided by run decomposition. -/
/-- `^\d{4}$`. -/
def patYear (cs : List Char) : Bool := cs.length = 4 && cs.all Char.isDigit

/-- The date pattern: 1-2 digits, a dash or slash, 1-2 digits, a dash or
slash, 2-4 digits, anchored at both ends. -/
def patDate (cs : List Char) : Bool :=
  let d1 := cs.takeWhile Char.isDigit
  let r1 := cs.dropWhile Char.isDigit
  decide (1 ≤ d1.length ∧ d1.length ≤ 2) &&
  match r1 with
  | s1 :: r2 =>
    (s1 = '-' || s1 = '/') &&
    (let d2 := r2.takeWhile Char.isDigit
     let r3 := r2.dropWhile Char.isDigit
     decide (1 ≤ d2.length ∧ d2.length ≤ 2) &&
     match r3 with
     | s2 :: r4 =>
       (s2 = '-' || s2 = '/') && !r4.isEmpty && r4.all Char.isDigit &&
       decide (2 ≤ r4.length ∧ r4.length ≤ 4)
     | [] => false)
  | [] => false

/-- The optional trailing `([ap]m)?$` (case-insensitive). -/
def patAmPm (cs : List Char) : Bool :=
  match cs with
  | [] => true
  | [a, m] => (a.toLower = 'a' || a.toLower = 'p') && m.toLower = 'm'
  | _ => false

/-- `^\d{1,2}:\d{2}(:\d{2})?([ap]m)?$` (case-insensitive). -/
def patTime (cs : List Char) : Bool :=
  let h := cs.takeWhile Char.isDigit
  let r1 := cs.dropWhile Char.isDigit
  decide (1 ≤ h.length ∧ h.length ≤ 2) &&
  match r1 with
  | ':' :: r2 =>
    let m := r2.takeWhile Char.isDigit
    let r3 := r2.dropWhile Char.isDigit
    m.length = 2 &&
    (match r3 with
     | ':' :: r4 =>
       let s := r4.takeWhile Char.isDigit
       let r5 := r4.dropWhile Char.isDigit
       s.length = 2 && patAmPm r5
     | _ => patAmPm r3)
  | _ => false

/-- `^\d+\.\d+$`. -/
def patDecimal (cs : List Char) : Bool :=
  let d1 := cs.takeWhile Char.isDigit
  let r1 := cs.dropWhile Char.isDigit
  !d1.isEmpty &&
  match r1 with
  | '.' :: r2 => !r2.isEmpty && r2.all Char.isDigit
  | _ => false

/-- `^\d+,\d+$`. -/
def patComma (cs : List Char) : Bool :=
  let d1 := cs.takeWhile Char.isDigit
  let r1 := cs.dropWhile Char.isDigit
  !d1.isEmpty &&
  match r1 with
  | ',' :: r2 => !r2.isEmpty && r2.all Char.isDigit
  | _ => false

/-- `^\d+%$`. -/
def patPercent (cs : List Char) : Bool :=
  let d1 := cs.takeWhile Char.isDigit
  let r1 := cs.dropWhile Char.isDigit
  !d1.isEmpty && r1 = ['%']

/-- `^#\d+$`. -/
def patHash (cs : List Char) : Bool :=
  match cs with
  | '#' :: r => !r.isEmpty && r.all Char.isDigit
  | _ => false

/-- `^\$\d+(\.\d{2})?$`. -/
def patMoney (cs : List Char) : Bool :=
  match cs with
  | '$' :: r =>
    let d := r.takeWhile Char.isDigit
    let r1 := r.dropWhile Char.isDigit
    !d.isEmpty &&
    (r1.isEmpty ||
      (match r1 with
       | '.' :: r2 => r2.length = 2 && r2.all Char.isDigit
       | _ => false))
  | _ => false

/-- `^[A-Z]{2,}\d{2,}$` (case-insensitive). -/
def patCode1 (cs : List Char) : Bool :=
  let l := cs.takeWhile Char.isAlpha
  let r := cs.dropWhile Char.isAlpha
  decide (2 ≤ l.length) && decide (2 ≤ r.length) && r.all Char.isDigit

/-- `^\d{3,}[A-Z]{2,}$` (case-insensitive). -/
def patCode2 (cs : List Char) : Bool :=
  let d := cs.takeWhile Char.isDigit
  let r := cs.dropWhile Char.isDigit
  decide (3 ≤ d.length) && decide (2 ≤ r.length) && r.all Char.isAlpha

/-- `^[A-Z0-9]{5,}-[A-Z0-9]{3,}$` (case-insensitive). -/
def patCode3 (cs : List Char) : Bool :=
  let a := cs.takeWhile Char.isAlphanum
  let r := cs.dropWhile Char.isAlphanum
  decide (5 ≤ a.length) &&
  match r with
  | '-' :: r2 => decide (3 ≤ r2.length) && r2.all Char.isAlphanum
  | _ => false

/-- `^[A-Z]{3,}\d{3,}[A-Z]{2,}$` (case-insensitive). -/
def patCode4 (cs : List Char) : Bool :=
  let l1 := cs.takeWhile Char.isAlpha
  let r1 := cs.dropWhile Char.isAlpha
  let d := r1.takeWhile Char.isDigit
  let r2 := r1.dropWhile Char.isDigit
  decide (3 ≤ l1.length) && decide (3 ≤ d.length) && decide (2 ≤ r2.length) &&
    r2.all Char.isAlpha

/-- `word.isdigit()` (ASCII): non-empty and all digits. -/
def pyIsDigit (w : String) : Bool := !w.data.isEmpty && w.data.all Char.isDigit

/-- The `number_patterns` loop, in order. -/
def numberPats (cs : List Char) : Bool :=
  patYear cs || patDate cs || patTime cs || patDecimal cs || patComma cs ||
    patPercent cs || patHash cs || patMoney cs

/-- The `alphanumeric_patterns` loop, in order. -/
def codePats (cs : List Char) : Bool :=
  patCode1 cs || patCode2 cs || patCode3 cs || patCode4 cs

/-- `JejemonNormalizer._should_apply_character_replacement(word)`. -/
def should_apply_character_replacement (lex : LexState) (word : String) : Bool :=
  if is_in_words_txt lex word then false
  else if pyTruthy (get_normal_word lex word) then false
  else if pyIsDigit word && decide (3 ≤ word.length) then false
  else if numberPats word.data then false
  else if codePats word.data then false
  else true

/-- The character-replacement step of `normalize_word` as coded: apply
character replacements when eligible, and re-run the lexicon lookup only
when the word actually changed (`if modified_word != word`). -/
def charStep (lex : LexState) (word : String) : Option String :=
  if should_apply_character_replacement lex word then
    let mw := apply_character_replacements lex word
    if mw ≠ word then truthyGet lex mw else none
  else none

/-- The fuzzy lookup of `normalize_word` as coded, guarded by the
non-emptiness test `if jejemon_words:` on the slang key list. -/
def fuzzyStep (lex : LexState) (w : String) : Option String :=
  let keys := get_all_jejemon_words lex
  if !keys.isEmpty then
    let bm := FuzzyMatcher.find_best_match w keys
    if bm.2 > 6/10 then truthyGet lex bm.1 else none
  else none

/-- `JejemonNormalizer.normalize_word(word)`, the per-token resolution
chain; early `return`s become `Option` matches. -/
def normalize_word (lex : LexState) (word : String) : String :=
  if is_in_words_txt lex word then word
  else
    match truthyGet lex word with
    | some n => n
    | none =>
      match charStep lex word with
      | some n => n
      | none =>
        match fuzzyStep lex word with
        | some n => n
        | none =>
          let lm := lemmatize word
          if lm ≠ word then
            match truthyGet lex lm with
            | some n => n
            | none =>
              match fuzzyStep lex lm with
              | some n => n
              | none => word
          else word

/-! Text-level pipeline (`normalize_text` and its two helpers).  The
`context_rules.json` patterns are arbitrary regexes tested with
`re.search(..., re.IGNORECASE)`; they are modelled as opaque predicates. -/
structure CtxRule where
  pat : String → Bool
  repl : String

structure CtxEntry where
  rules : List CtxRule
  dflt : String

structure NormState where
  lex : LexState
  ctx : List (String × CtxEntry)

/-- `str.split()`: maximal runs of non-whitespace characters. -/
def wsRunsAux : List Char → List Char → List (List Char)
  | [], acc => if acc = [] then [] else [acc.reverse]
  | c :: cs, acc =>
    if !c.isWhitespace then wsRunsAux cs (c :: acc)
    else if acc = [] then wsRunsAux cs [] else acc.reverse :: wsRunsAux cs []

def splitWS (s : String) : List String := (wsRunsAux s.data []).map String.mk

/-- The `meaningful_patterns` list of
`_apply_punctuation_evaluation_to_text` (no duplicates here). -/
def textPunctPats : List (String × String) :=
  [("'s", "s"), ("'t", "t"), ("'re", "re"), ("'ve", "ve"), ("'ll", "ll"),
   ("'d", "d"), ("'m", "m"), ("'", ""), ("`", "")]

/-- The strip class: `meaningful_punctuation` minus the always-allowed
`{'+', '@'}`. -/
def stripSet : List Char := meaningfulPunct.filter fun c => !(c == '+') && !(c == '@')

/-- Per-word cleanup: words with a (truthy) lexicon mapping are kept;
otherwise leading and trailing strip-class characters are removed. -/
def cleanWord (lex : LexState) (w : String) : String :=
  if pyTruthy (get_normal_word lex w) then w
  else
    let c1 := w.data.dropWhile fun c => stripSet.contains c
    String.mk ((c1.reverse.dropWhile fun c => stripSet.contains c).reverse)

/-- `JejemonNormalizer._apply_punctuation_evaluation_to_text(text)`. -/
def apply_punctuation_evaluation_to_text (lex : LexState) (text : String) : String :=
  let t := stripMarkers textPunctPats text
  detokenize ((splitWS t).map (cleanWord lex))

/-- The context-rule pass on one word: for each character of the rule set
present in the current word, apply the first matching rule's replacement,
else the default, to every occurrence; then the lexicon's character
replacements. -/
def applyCtxToWord (st : NormState) (word : String) : String :=
  if !should_apply_character_replacement st.lex word then word
  else
    let r := st.ctx.foldl (fun r ce =>
      if containsSub ce.1.data r.data then
        match ce.2.rules.find? (fun rule => rule.pat r) with
        | some rule => replaceCS ce.1 rule.repl r
        | none => replaceCS ce.1 ce.2.dflt r
      else r) word
    apply_character_replacements st.lex r

/-- `JejemonNormalizer._apply_character_replacements_to_text(text)`. -/
def apply_character_replacements_to_text (st : NormState) (text : String) : String :=
  detokenize ((splitWS text).map (applyCtxToWord st))

/-- The five staged strings `normalize_text` returns. -/
structure NormalizationResult where
  original : String
  punctuation_evaluated : String
  character_replaced : String
  tokenized : String
  normalized : String

/-- `JejemonNormalizer.normalize_text(text)`. -/
def normalize_text (st : NormState) (text : String) : NormalizationResult :=
  let pe := apply_punctuation_evaluation_to_text st.lex text
  let cr := apply_character_replacements_to_text st pe
  let toks := tokenize cr
  { original := text
    punctuation_evaluated := pe
    character_replaced := cr
    tokenized := detokenize toks
    normalized := detokenize (toks.map (normalize_word st.lex)) }

/-- `JejemonNormalizer.get_normalization_confidence(original, normalized)`. -/
def get_normalization_confidence (original normalized : String) : ℚ :=
  if original = normalized then 0
  else
    let ot := tokenize original
    let nt := tokenize normalized
    if ot.length ≠ nt.length then 1/2
    else if ot.isEmpty then 0
    else
      ((ot.zip nt).map fun p =>
        if p.1 = p.2 then (1 : ℚ) else EditDistance.similarity p.1 p.2).sum / ot.length

/-! ### Specification-side definitions

The following definitions restate, word for word, what the claims under
check say the code does; the claim theorems compare them with the
embedded functions above. -/
/-- Claim C2's description of `_evaluate_punctuation_value`: strip the
contraction markers to build the modified candidate, look up both words,
and resolve by the stated precedence — with no further conditions. -/
def evalPunctClaim (lex : LexState) (word : String) : String × Bool :=
  let modified := stripMarkers punctPats word
  match truthyGet lex word, truthyGet lex modified with
  | some o, none => (o, false)
  | none, some m => (m, true)
  | some _, some m => (m, true)
  | none, none => (word, false)

/-- Claim C1's fuzzy rule: best match against all slang keys, accepted
when the score strictly exceeds 0.6 and that key has a lexicon mapping. -/
def fuzzyStepClaim (lex : LexState) (w : String) : Option String :=
  let bm := FuzzyMatcher.find_best_match w (get_all_jejemon_words lex)
  if bm.2 > 6/10 then truthyGet lex bm.1 else none

/-- Claim C1's description of `normalize_word`: six steps tried in order,
first success wins. -/
def normalizeWordClaim (lex : LexState) (w : String) : String :=
  if is_in_words_txt lex w then w
  else
    match truthyGet lex w with
    | some n => n
    | none =>
      match (if should_apply_character_replacement lex w then
          truthyGet lex (apply_character_replacements lex w) else none) with
      | some n => n
      | none =>
        match fuzzyStepClaim lex w with
        | some n => n
        | none =>
          let lm := lemmatize w
          if lm ≠ w then
            match truthyGet lex lm with
            | some n => n
            | none =>
              match fuzzyStepClaim lex lm with
              | some n => n
              | none => w
          else w

/-- Claim C7's description of `lemmatize`: strip the first matching prefix
using only the keys of the ordered prefix table (the alternative spellings
are never consulted), then the first matching suffix that leaves at least
one character, and return the original word when the candidate has fewer
than two characters. -/
def prefixKeys : List String := prefixRules.map Prod.fst

def stripPreKeys : List String → String → String
  | [], w => w
  | p :: rest, w =>
    if p.data.isPrefixOf w.data then String.mk (w.data.drop p.length)
    else stripPreKeys rest w

def lemmatizeClaim (word : String) : String :=
  let w1 := stripPreKeys prefixKeys word
  let w2 := stripSuf suffixRules w1
  if w2.length < 2 then word else w2

/-- Claim C5's description of `apply_character_replacements`: variants
longest to shortest; a variant equal to its own canonical letter is never
applied; a single-character variant rewrites every case-insensitive
occurrence; a multi-character variant rewrites only a whole-word match;
then every replacement-table entry as a case-insensitive substring
replacement. -/
def applyCharReplClaim (lex : LexState) (word : String) : String :=
  let afterVariants := (sortVariants lex.variantToLetter).foldl (fun r vb =>
    if vb.1 = vb.2 then r
    else if vb.1.length = 1 then replaceCI vb.1 vb.2 r
    else if lowerStr r = vb.1 then vb.2 else r) word
  lex.commonReplacements.foldl (fun r p => replaceCI p.1 p.2 r) afterVariants

/-- A lexicon state with no rules loaded at all. -/
def emptyLex : LexState := ⟨[], [], [], []⟩

/-- A lexicon state whose only rule maps the slang word `hello` to `hi`. -/
def lexHello : LexState := ⟨[("hello", "hi")], [], [], []⟩

/-- The variant table `{"e": ["3"]}` of claim C5's example: reverse index
`3 ↦ e`, no other rules. -/
def lexE3 : LexState := ⟨[], [], [("3", "e")], []⟩

/-! ### Theorems -/

theorem lev_nil_right (xs : List Char) : lev xs [] = xs.length := by
  cases xs <;> simp [lev]

theorem lev_self (xs : List Char) : lev xs xs = 0 := by
  induction xs with
  | nil => simp [lev]
  | cons x xs ih =>
    simp only [lev]
    rw [ih]
    simp

theorem lev_comm (xs : List Char) : ∀ ys, lev xs ys = lev ys xs := by
  induction xs with
  | nil => intro ys; cases ys <;> simp [lev]
  | cons x xs ih =>
    intro ys
    induction ys with
    | nil => simp [lev]
    | cons y ys ihy =>
      simp only [lev]
      have hc : (if x = y then 0 else 1) = (if y = x then 0 else 1) := by
        by_cases h : x = y
        · simp [h]
        · rw [if_neg h, if_neg (fun e => h e.symm)]
      rw [hc, ih ys, ih (y :: ys), ihy]
      omega

theorem lev_le_max (xs : List Char) : ∀ ys, lev xs ys ≤ max xs.length ys.length := by
  induction xs with
  | nil => intro ys; simp [lev]
  | cons x xs ih =>
    intro ys
    cases ys with
    | nil => simp [lev]
    | cons y ys =>
      have h1 := ih ys
      simp only [lev, List.length_cons]
      have hc : (if x = y then 0 else 1) ≤ 1 := by split <;> omega
      omega

theorem rowAux_head (a ys : List Char) (r : List Char) :
    rowAux a ys r = lev a ys :: (rowAux a ys r).tail := by
  cases r <;> rfl

theorem rowStep_eq (c1 : Char) (a : List Char) :
    ∀ r ys, rowStep c1 r (rowAux a ys r) (lev (c1 :: a) ys) = (rowAux (c1 :: a) ys r).tail := by
  intro r
  induction r with
  | nil => intro ys; rfl
  | cons c r ih =>
    intro ys
    rw [show rowAux a ys (c :: r) = lev a ys :: rowAux a (c :: ys) r from rfl,
      rowAux_head a (c :: ys) r]
    show (min (lev a (c :: ys) + 1)
        (min (lev (c1 :: a) ys + 1) (lev a ys + (if c1 = c then 0 else 1)))) ::
        rowStep c1 r (lev a (c :: ys) :: (rowAux a (c :: ys) r).tail) _ = _
    have hv : min (lev a (c :: ys) + 1)
        (min (lev (c1 :: a) ys + 1) (lev a ys + (if c1 = c then 0 else 1))) =
        lev (c1 :: a) (c :: ys) := by
      simp only [lev]; omega
    rw [hv, ← rowAux_head a (c :: ys) r, ih (c :: ys)]
    rw [show rowAux (c1 :: a) ys (c :: r) = lev (c1 :: a) ys :: rowAux (c1 :: a) (c :: ys) r
      from rfl]
    rw [rowAux_head (c1 :: a) (c :: ys) r]
    simp

theorem outerLoop_eq (s2 : List Char) :
    ∀ rest a, outerLoop s2 rest (rowAux a [] s2) a.length = rowAux (rest.reverse ++ a) [] s2 := by
  intro rest
  induction rest with
  | nil => intro a; simp [outerLoop]
  | cons c1 rest ih =>
    intro a
    show outerLoop s2 rest ((a.length + 1) :: rowStep c1 s2 (rowAux a [] s2) (a.length + 1))
        (a.length + 1) = _
    have hl : a.length + 1 = lev (c1 :: a) [] := by rw [lev_nil_right]; rfl
    rw [hl, rowStep_eq c1 a s2 [], ← rowAux_head (c1 :: a) [] s2,
      show lev (c1 :: a) [] = (c1 :: a).length from lev_nil_right _, ih (c1 :: a)]
    simp

theorem rowAux_init (r : List Char) :
    ∀ ys : List Char, rowAux [] ys r = (List.range (r.length + 1)).map (· + ys.length) := by
  induction r with
  | nil => intro ys; simp [rowAux, List.range_succ_eq_map, lev]
  | cons c r ih =>
    intro ys
    rw [show rowAux [] ys (c :: r) = lev [] ys :: rowAux [] (c :: ys) r from rfl, ih (c :: ys)]
    have h0 : lev [] ys = ys.length := by simp [lev]
    rw [h0]
    conv_rhs => rw [show (c :: r).length + 1 = (r.length + 1) + 1 from rfl,
      List.range_succ_eq_map, List.map_cons, List.map_map]
    congr 1
    · simp
    · exact List.map_congr_left fun x _ => by
        simp only [Function.comp, List.length_cons, Nat.succ_eq_add_one]
        omega

theorem getLastD_of_ne_nil {l : List Nat} (h : l ≠ []) (d₁ d₂ : Nat) :
    l.getLastD d₁ = l.getLastD d₂ := by
  cases l with
  | nil => exact absurd rfl h
  | cons a l => rw [List.getLastD_cons, List.getLastD_cons]

theorem rowAux_getLastD (a : List Char) :
    ∀ r ys, (rowAux a ys r).getLastD 0 = lev a (r.reverse ++ ys) := by
  intro r
  induction r with
  | nil => intro ys; rfl
  | cons c r ih =>
    intro ys
    rw [show rowAux a ys (c :: r) = lev a ys :: rowAux a (c :: ys) r from rfl]
    rw [List.getLastD_cons]
    have hne : rowAux a (c :: ys) r ≠ [] := by rw [rowAux_head]; simp
    rw [getLastD_of_ne_nil hne _ 0, ih (c :: ys)]
    simp

theorem calcCore_eq (s1 s2 : List Char) : calcCore s1 s2 = lev s1.reverse s2.reverse := by
  rw [calcCore]
  by_cases h2 : s2.length = 0
  · rw [if_pos h2]
    have : s2 = [] := List.length_eq_zero.mp h2
    subst this
    simp [lev_nil_right]
  · rw [if_neg h2]
    have hinit : List.range (s2.length + 1) = rowAux [] [] s2 := by
      rw [rowAux_init s2 []]; simp
    have houter := outerLoop_eq s2 s1 []
    simp only [List.length_nil, List.append_nil] at houter
    rw [hinit, houter, rowAux_getLastD]
    simp

theorem calcList_eq (s1 s2 : List Char) : calcList s1 s2 = lev s1.reverse s2.reverse := by
  rw [calcList]
  by_cases h : s1.length < s2.length
  · rw [if_pos h, calcCore_eq, lev_comm]
  · rw [if_neg h, calcCore_eq]

namespace EditDistance

theorem calculate_comm (a b : String) : calculate a b = calculate b a := by
  unfold calculate
  rw [calcList_eq, calcList_eq, lev_comm]

theorem calculate_self (a : String) : calculate a a = 0 := by
  unfold calculate
  rw [calcList_eq, lev_self]

theorem calculate_le_max (a b : String) : calculate a b ≤ max a.length b.length := by
  unfold calculate
  rw [calcList_eq]
  have h := lev_le_max a.data.reverse b.data.reverse
  rw [List.length_reverse, List.length_reverse] at h
  exact h

theorem similarity_nonneg (a b : String) : 0 ≤ similarity a b := by
  unfold similarity
  split
  · norm_num
  · simp only
    split
    · norm_num
    · rename_i hmax
      set m : Nat := max a.length b.length with hm
      have hpos : (0 : ℚ) < (m : ℚ) := by
        exact_mod_cast Nat.pos_of_ne_zero hmax
      have hle : (calculate a b : ℚ) ≤ (m : ℚ) := by
        exact_mod_cast calculate_le_max a b
      have h1 := div_le_one_of_le₀ hle (le_of_lt hpos)
      linarith

theorem similarity_le_one (a b : String) : similarity a b ≤ 1 := by
  unfold similarity
  split
  · norm_num
  · simp only
    split
    · norm_num
    · rename_i hmax
      set m : Nat := max a.length b.length with hm
      have hpos : (0 : ℚ) < (m : ℚ) := by
        exact_mod_cast Nat.pos_of_ne_zero hmax
      have h2 : (0 : ℚ) ≤ (calculate a b : ℚ) / (m : ℚ) :=
        div_nonneg (by positivity) (le_of_lt hpos)
      linarith

end EditDistance

namespace FuzzyMatcher

theorem foldr_max_shift (w : String) (cs : List String) :
    ∀ x y : ℚ, cs.foldr (fun c r => max (EditDistance.similarity w c) r) (max x y) =
      max x (cs.foldr (fun c r => max (EditDistance.similarity w c) r) y) := by
  induction cs with
  | nil => intro x y; rfl
  | cons c cs ih =>
    intro x y
    simp only [List.foldr_cons, ih]
    rw [max_left_comm]

theorem le_foldr_max (w : String) (cs : List String) :
    ∀ x : ℚ, x ≤ cs.foldr (fun c r => max (EditDistance.similarity w c) r) x := by
  induction cs with
  | nil => intro x; exact le_refl x
  | cons c cs ih =>
    intro x
    simp only [List.foldr_cons]
    exact le_trans (ih x) (le_max_right _ _)

theorem fbm_snd (w : String) (cs : List String) :
    ∀ bm : String, ∀ bs : ℚ, (cs.foldl (fbmStep w) (bm, bs)).2 =
      cs.foldr (fun c r => max (EditDistance.similarity w c) r) bs := by
  induction cs with
  | nil => intro bm bs; rfl
  | cons c cs ih =>
    intro bm bs
    simp only [List.foldl_cons, List.foldr_cons]
    by_cases h : EditDistance.similarity w c > bs
    · rw [show fbmStep w (bm, bs) c = (c, EditDistance.similarity w c) by
        simp [fbmStep, h]]
      rw [ih]
      conv_lhs => rw [show EditDistance.similarity w c = max (EditDistance.similarity w c) bs
        from (max_eq_left (le_of_lt h)).symm]
      rw [foldr_max_shift]
    · rw [show fbmStep w (bm, bs) c = (bm, bs) by simp [fbmStep, h]]
      rw [ih]
      have hle : EditDistance.similarity w c ≤
          cs.foldr (fun c r => max (EditDistance.similarity w c) r) bs :=
        le_trans (not_lt.mp h) (le_foldr_max w cs bs)
      rw [max_eq_right hle]

theorem fbm_stay (w : String) (cs : List String) :
    ∀ bm : String, ∀ bs : ℚ, (cs.foldl (fbmStep w) (bm, bs)).2 = bs →
      cs.foldl (fbmStep w) (bm, bs) = (bm, bs) := by
  induction cs with
  | nil => intro bm bs _; rfl
  | cons c cs ih =>
    intro bm bs hsnd
    simp only [List.foldl_cons] at hsnd ⊢
    by_cases h : EditDistance.similarity w c > bs
    · exfalso
      rw [show fbmStep w (bm, bs) c = (c, EditDistance.similarity w c) by
        simp [fbmStep, h]] at hsnd
      rw [fbm_snd] at hsnd
      have := le_foldr_max w cs (EditDistance.similarity w c)
      rw [hsnd] at this
      exact absurd h (not_lt.mpr this)
    · rw [show fbmStep w (bm, bs) c = (bm, bs) by simp [fbmStep, h]] at hsnd ⊢
      exact ih bm bs hsnd

theorem fbm_fst_find (w : String) (cs : List String) :
    ∀ bm : String, ∀ bs : ℚ, bs < (cs.foldl (fbmStep w) (bm, bs)).2 →
      cs.find? (fun c =>
          decide (EditDistance.similarity w c = (cs.foldl (fbmStep w) (bm, bs)).2)) =
        some (cs.foldl (fbmStep w) (bm, bs)).1 := by
  induction cs with
  | nil => intro bm bs h; exact absurd h (lt_irrefl bs)
  | cons c cs ih =>
    intro bm bs hlt
    simp only [List.foldl_cons] at hlt ⊢
    by_cases h : EditDistance.similarity w c > bs
    · simp only [show fbmStep w (bm, bs) c = (c, EditDistance.similarity w c) from by
        simp [fbmStep, h]] at hlt ⊢
      by_cases heq : (cs.foldl (fbmStep w) (c, EditDistance.similarity w c)).2 =
          EditDistance.similarity w c
      · have hr := fbm_stay w cs c (EditDistance.similarity w c) heq
        rw [hr]
        rw [List.find?_cons_of_pos _ (by simp)]
      · have hlt2 : EditDistance.similarity w c <
            (cs.foldl (fbmStep w) (c, EditDistance.similarity w c)).2 := by
          have h1 := fbm_snd w cs c (EditDistance.similarity w c)
          have h2 := le_foldr_max w cs (EditDistance.similarity w c)
          rw [← h1] at h2
          exact lt_of_le_of_ne h2 (fun e => heq e.symm)
        rw [List.find?_cons_of_neg _ (by
          simp only [decide_eq_true_eq]
          exact fun e => absurd e (ne_of_lt hlt2))]
        exact ih c (EditDistance.similarity w c) hlt2
    · simp only [show fbmStep w (bm, bs) c = (bm, bs) from by simp [fbmStep, h]] at hlt ⊢
      rw [List.find?_cons_of_neg _ (by
        simp only [decide_eq_true_eq]
        intro e
        exact absurd (e ▸ hlt) (not_lt.mpr (not_lt.mp h)))]
      exact ih bm bs hlt

end FuzzyMatcher

/-! Properties of the tokenizer used by the round-trip claim. -/
theorem char_ofNat_toNat (n : Nat) (h : n < 55296) : (Char.ofNat n).toNat = n := by
  have hv : n.isValidChar := Or.inl h
  rw [Char.ofNat, dif_pos hv]
  rfl

theorem toLower_eq (c : Char) :
    Char.toLower c = if c.toNat ≥ 65 ∧ c.toNat ≤ 90 then Char.ofNat (c.toNat + 32) else c := rfl

theorem toLower_idem (c : Char) : c.toLower.toLower = c.toLower := by
  by_cases h : c.toNat ≥ 65 ∧ c.toNat ≤ 90
  · have h1 : c.toLower = Char.ofNat (c.toNat + 32) := by rw [toLower_eq, if_pos h]
    have h2 : c.toLower.toNat = c.toNat + 32 := by
      rw [h1, char_ofNat_toNat _ (by omega)]
    rw [toLower_eq c.toLower, if_neg (by omega)]
  · have h1 : c.toLower = c := by rw [toLower_eq, if_neg h]
    rw [h1]
    exact h1

theorem classRunsAux_mem : ∀ (cs acc : List Char) (r : List Char),
    r ∈ classRunsAux cs acc → (∀ c ∈ acc, isClassChar c) →
    r ≠ [] ∧ ∀ c ∈ r, isClassChar c := by
  intro cs
  induction cs with
  | nil =>
    intro acc r hr hacc
    simp only [classRunsAux] at hr
    split at hr
    · exact absurd hr (List.not_mem_nil r)
    · rename_i hne
      rw [List.mem_singleton] at hr
      subst hr
      refine ⟨by simpa using hne, ?_⟩
      intro c hc
      exact hacc c (List.mem_reverse.mp hc)
  | cons c cs ih =>
    intro acc r hr hacc
    simp only [classRunsAux] at hr
    by_cases hcl : isClassChar c
    · rw [if_pos hcl] at hr
      refine ih (c :: acc) r hr ?_
      intro x hx
      rcases List.mem_cons.mp hx with h | h
      · exact h ▸ hcl
      · exact hacc x h
    · rw [if_neg hcl] at hr
      by_cases hacc0 : acc = []
      · rw [if_pos hacc0] at hr
        exact ih [] r hr (by intro x hx; exact absurd hx (List.not_mem_nil x))
      · rw [if_neg hacc0] at hr
        rcases List.mem_cons.mp hr with h | h
        · subst h
          refine ⟨by simpa using hacc0, ?_⟩
          intro x hx
          exact hacc x (List.mem_reverse.mp hx)
        · exact ih [] r h (by intro x hx; exact absurd hx (List.not_mem_nil x))

theorem getLast?_dropWhile (p : Char → Bool) :
    ∀ l : List Char, l.dropWhile p ≠ [] → (l.dropWhile p).getLast? = l.getLast? := by
  intro l
  induction l with
  | nil => intro h; exact absurd rfl h
  | cons a l ih =>
    intro h
    by_cases hp : p a
    · rw [List.dropWhile_cons, if_pos hp] at h ⊢
      have hlne : l ≠ [] := by
        intro e
        subst e
        exact h (by simp)
      rw [ih h]
      cases l with
      | nil => exact absurd rfl hlne
      | cons b l => rw [List.getLast?_cons_cons]
    · rw [List.dropWhile_cons, if_neg hp]

theorem headD_dropWhile (p : Char → Bool) (d : Char) :
    ∀ l : List Char, l.dropWhile p ≠ [] → p ((l.dropWhile p).headD d) = false := by
  intro l
  induction l with
  | nil => intro h; exact absurd rfl h
  | cons a l ih =>
    intro h
    by_cases hp : p a
    · rw [List.dropWhile_cons, if_pos hp] at h ⊢
      exact ih h
    · rw [List.dropWhile_cons, if_neg hp]
      simpa using hp

theorem mem_dropWhile (p : Char → Bool) (l : List Char) (c : Char)
    (h : c ∈ l.dropWhile p) : c ∈ l :=
  (List.dropWhile_sublist p).mem h

theorem trimRun_sound (run t : List Char) (h : trimRun run = some t) :
    t ≠ [] ∧ (∀ c ∈ t, c ∈ run) ∧
      isWordChar (t.headD ' ') ∧ isWordChar (t.getLastD ' ') := by
  rw [trimRun] at h
  set q : Char → Bool := fun c => !isWordChar c with hq
  set u : List Char := (run.dropWhile q).reverse.dropWhile q with hu
  split at h
  · exact absurd h (by simp)
  · rename_i hne
    have ht : t = u.reverse := by
      injection h with h'
      exact h'.symm
    have hune : u ≠ [] := by
      intro e
      exact hne (by rw [e]; rfl)
    subst ht
    refine ⟨by simpa using hune, ?_, ?_, ?_⟩
    · intro c hc
      have h1 : c ∈ u := List.mem_reverse.mp hc
      have h2 : c ∈ (run.dropWhile q).reverse := mem_dropWhile q _ c h1
      exact mem_dropWhile q run c (List.mem_reverse.mp h2)
    · -- head of `u.reverse` = last of `u` = last of `(run.dropWhile q).reverse`
      -- = head of `run.dropWhile q`, which fails `q`.
      have hdw : run.dropWhile q ≠ [] := by
        intro e
        exact hune (by rw [hu, e]; rfl)
      have h1 : u.getLast? = (run.dropWhile q).reverse.getLast? :=
        getLast?_dropWhile q _ hune
      have h2 : (run.dropWhile q).reverse.getLast? = (run.dropWhile q).head? :=
        List.getLast?_reverse _
      have h3 : u.reverse.headD ' ' = u.getLastD ' ' := by
        rw [List.headD_eq_head?, List.getLastD_eq_getLast?, List.head?_reverse]
      rw [h3, List.getLastD_eq_getLast?, h1, h2, ← List.headD_eq_head?]
      have := headD_dropWhile q ' ' run hdw
      rw [hq] at this
      simpa using this
    · have h3 : u.reverse.getLastD ' ' = u.headD ' ' := by
        rw [List.getLastD_eq_getLast?, List.getLast?_reverse, List.headD_eq_head?]
      rw [h3]
      have := headD_dropWhile q ' ' _ hune
      rw [hq] at this
      simpa using this

theorem trimRun_fixed (t : List Char) (hne : t ≠ [])
    (hh : isWordChar (t.headD ' ')) (hl : isWordChar (t.getLastD ' ')) :
    trimRun t = some t := by
  rw [trimRun]
  set q : Char → Bool := fun c => !isWordChar c with hq
  have h1 : t.dropWhile q = t := by
    cases t with
    | nil => rfl
    | cons a l =>
      rw [List.dropWhile_cons, if_neg]
      simp only [List.headD_cons] at hh
      simp [hq, hh]
  have h2 : t.reverse.dropWhile q = t.reverse := by
    cases hrev : t.reverse with
    | nil => rfl
    | cons a l =>
      rw [List.dropWhile_cons, if_neg]
      have : t.reverse.headD ' ' = a := by rw [hrev]; rfl
      rw [List.headD_eq_head?, List.head?_reverse, ← List.getLastD_eq_getLast?] at this
      simp [hq, this ▸ hl]
  rw [h1, h2, List.reverse_reverse, if_neg hne]

theorem runsAux_accum : ∀ (t cs acc : List Char), (∀ c ∈ t, isClassChar c) →
    classRunsAux (t ++ cs) acc = classRunsAux cs (t.reverse ++ acc) := by
  intro t
  induction t with
  | nil => intro cs acc _; simp
  | cons c t ih =>
    intro cs acc hcl
    have hc : isClassChar c := hcl c (List.mem_cons_self c t)
    rw [List.cons_append, show classRunsAux (c :: (t ++ cs)) acc =
      classRunsAux (t ++ cs) (c :: acc) from by rw [classRunsAux, if_pos hc]]
    rw [ih cs (c :: acc) (fun x hx => hcl x (List.mem_cons_of_mem c hx))]
    simp

theorem classRuns_joinSp : ∀ ts : List (List Char),
    (∀ t ∈ ts, t ≠ [] ∧ ∀ c ∈ t, isClassChar c) → classRuns (joinSp ts) = ts := by
  intro ts
  induction ts with
  | nil => intro _; rfl
  | cons t ts ih =>
    intro hts
    obtain ⟨htne, htcl⟩ := hts t (List.mem_cons_self t ts)
    cases ts with
    | nil =>
      show classRunsAux (joinSp [t]) [] = [t]
      rw [show joinSp [t] = t from rfl, show t = t ++ [] from by simp,
        runsAux_accum t [] [] (by simpa using htcl)]
      rw [classRunsAux]
      rw [if_neg (by simpa using htne)]
      simp
    | cons t2 ts2 =>
      show classRunsAux (joinSp (t :: t2 :: ts2)) [] = t :: t2 :: ts2
      rw [show joinSp (t :: t2 :: ts2) = t ++ ' ' :: joinSp (t2 :: ts2) from rfl]
      rw [runsAux_accum t (' ' :: joinSp (t2 :: ts2)) [] htcl]
      rw [classRunsAux, if_neg (by decide), if_neg (by simpa using htne)]
      rw [List.append_nil, List.reverse_reverse]
      have := ih (fun x hx => hts x (List.mem_cons_of_mem t hx))
      rw [show classRuns (joinSp (t2 :: ts2)) = classRunsAux (joinSp (t2 :: ts2)) []
        from rfl] at this
      rw [this]

theorem joinSp_map_toLower : ∀ ts : List (List Char),
    (∀ t ∈ ts, t.map Char.toLower = t) → (joinSp ts).map Char.toLower = joinSp ts := by
  intro ts
  induction ts with
  | nil => intro _; rfl
  | cons t ts ih =>
    intro hts
    have ht := hts t (List.mem_cons_self t ts)
    cases ts with
    | nil => exact ht
    | cons t2 ts2 =>
      rw [show joinSp (t :: t2 :: ts2) = t ++ ' ' :: joinSp (t2 :: ts2) from rfl]
      rw [List.map_append, List.map_cons, ht,
        ih (fun x hx => hts x (List.mem_cons_of_mem t hx))]
      rfl

theorem filterMap_trim_self : ∀ l : List (List Char),
    (∀ t ∈ l, trimRun t = some t) → l.filterMap trimRun = l := by
  intro l
  induction l with
  | nil => intro _; rfl
  | cons t l ih =>
    intro h
    rw [List.filterMap_cons, h t (List.mem_cons_self t l),
      ih (fun x hx => h x (List.mem_cons_of_mem t hx))]

theorem class_not_ws (c : Char) (h : isClassChar c = true) : c.isWhitespace = false := by
  by_contra hw
  have hw' : c.isWhitespace = true := by
    revert hw
    cases c.isWhitespace <;> simp
  have hw2 : ((c = ' ' ∨ c = '\t') ∨ c = '\x0d') ∨ c = '\n' := by
    simpa [Char.isWhitespace] using hw'
  rcases hw2 with ((h1 | h1) | h1) | h1 <;> subst h1 <;> exact absurd h (by decide)

theorem classRunsAux_chars : ∀ (cs acc : List Char) (r : List Char),
    r ∈ classRunsAux cs acc → ∀ c ∈ r, c ∈ cs ∨ c ∈ acc := by
  intro cs
  induction cs with
  | nil =>
    intro acc r hr c hc
    simp only [classRunsAux] at hr
    split at hr
    · exact absurd hr (List.not_mem_nil r)
    · rw [List.mem_singleton] at hr
      subst hr
      exact Or.inr (List.mem_reverse.mp hc)
  | cons a cs ih =>
    intro acc r hr c hc
    simp only [classRunsAux] at hr
    by_cases hcl : isClassChar a
    · rw [if_pos hcl] at hr
      rcases ih (a :: acc) r hr c hc with h | h
      · exact Or.inl (List.mem_cons_of_mem a h)
      · rcases List.mem_cons.mp h with h' | h'
        · exact Or.inl (h' ▸ List.mem_cons_self a cs)
        · exact Or.inr h'
    · rw [if_neg hcl] at hr
      by_cases hacc0 : acc = []
      · rw [if_pos hacc0] at hr
        rcases ih [] r hr c hc with h | h
        · exact Or.inl (List.mem_cons_of_mem a h)
        · exact absurd h (List.not_mem_nil c)
      · rw [if_neg hacc0] at hr
        rcases List.mem_cons.mp hr with h | h
        · subst h
          exact Or.inr (List.mem_reverse.mp hc)
        · rcases ih [] r h c hc with h' | h'
          · exact Or.inl (List.mem_cons_of_mem a h')
          · exact absurd h' (List.not_mem_nil c)

theorem tokenizeL_inv (cs : List Char) : ∀ t ∈ tokenizeL cs, tokenInv t = true := by
  intro t ht
  rw [tokenizeL] at ht
  obtain ⟨run, hrun, htrim⟩ := List.mem_filterMap.mp ht
  obtain ⟨hne, hcl⟩ := classRunsAux_mem (cs.map Char.toLower) [] run hrun
    (by intro x hx; exact absurd hx (List.not_mem_nil x))
  obtain ⟨htne, hsub, hh, hl⟩ := trimRun_sound run t htrim
  simp only [tokenInv, Bool.and_eq_true]
  refine ⟨⟨⟨⟨?_, ?_⟩, ?_⟩, ?_⟩, ?_⟩
  · simpa using htne
  · rw [List.all_eq_true]
    intro c hc
    exact hcl c (hsub c hc)
  · exact hh
  · exact hl
  · rw [beq_iff_eq]
    have hfix : ∀ c ∈ t, Char.toLower c = c := by
      intro c hc
      have h1 : c ∈ cs.map Char.toLower := by
        rcases classRunsAux_chars (cs.map Char.toLower) [] run hrun c (hsub c hc) with h | h
        · exact h
        · exact absurd h (List.not_mem_nil c)
      obtain ⟨x, _, hx⟩ := List.mem_map.mp h1
      rw [← hx]
      exact toLower_idem x
    calc t.map Char.toLower = t.map id := List.map_congr_left hfix
      _ = t := List.map_id t

theorem tokenInv_elim (t : List Char) (h : tokenInv t = true) :
    t ≠ [] ∧ (∀ c ∈ t, isClassChar c) ∧ isWordChar (t.headD ' ') ∧
      isWordChar (t.getLastD ' ') ∧ t.map Char.toLower = t := by
  simp only [tokenInv, Bool.and_eq_true] at h
  obtain ⟨⟨⟨⟨h1, h2⟩, h3⟩, h4⟩, h5⟩ := h
  refine ⟨by simpa using h1, ?_, h3, h4, by rwa [beq_iff_eq] at h5⟩
  rw [List.all_eq_true] at h2
  exact h2

theorem tokenizeL_joinSp (ts : List (List Char)) (h : ∀ t ∈ ts, tokenInv t = true) :
    tokenizeL (joinSp ts) = ts := by
  have hp : ∀ t ∈ ts, t ≠ [] ∧ (∀ c ∈ t, isClassChar c) ∧ isWordChar (t.headD ' ') ∧
      isWordChar (t.getLastD ' ') ∧ t.map Char.toLower = t :=
    fun t ht => tokenInv_elim t (h t ht)
  rw [tokenizeL]
  rw [joinSp_map_toLower ts (fun t ht => (hp t ht).2.2.2.2)]
  rw [show classRuns (joinSp ts) = ts from
    classRuns_joinSp ts (fun t ht => ⟨(hp t ht).1, (hp t ht).2.1⟩)]
  exact filterMap_trim_self ts (fun t ht =>
    trimRun_fixed t (hp t ht).1 (hp t ht).2.2.1 (hp t ht).2.2.2.1)

/-! ### Supporting lemmas for the claim theorems -/
theorem str_ne_empty_iff (s : String) : s ≠ "" ↔ s.data ≠ [] := by
  constructor
  · intro h e
    exact h (by cases s with | mk d => cases e; rfl)
  · intro h e
    subst e
    exact h rfl

theorem str_length_ne_zero {s : String} (h : s ≠ "") : s.length ≠ 0 := by
  have hd : s.data ≠ [] := (str_ne_empty_iff s).mp h
  intro e
  exact hd (List.length_eq_zero.mp e)

theorem sum_le_length (l : List ℚ) (h : ∀ x ∈ l, x ≤ 1) : l.sum ≤ (l.length : ℚ) := by
  induction l with
  | nil => simp
  | cons x l ih =>
    simp only [List.sum_cons, List.length_cons]
    have h1 := ih fun y hy => h y (List.mem_cons_of_mem x hy)
    have hx := h x (List.mem_cons_self x l)
    push_cast
    linarith

theorem charStep_eq (lex : LexState) (word : String) (htg : truthyGet lex word = none) :
    charStep lex word =
      (if should_apply_character_replacement lex word then
        truthyGet lex (apply_character_replacements lex word) else none) := by
  unfold charStep
  by_cases hsa : should_apply_character_replacement lex word = true
  · simp only [hsa, if_true]
    by_cases hmw : apply_character_replacements lex word = word
    · rw [hmw]
      simp [htg]
    · simp [hmw]
  · simp only [Bool.not_eq_true] at hsa
    simp [hsa]

theorem fuzzyStep_eq (lex : LexState) (w : String) :
    fuzzyStep lex w = fuzzyStepClaim lex w := by
  unfold fuzzyStep fuzzyStepClaim
  by_cases hk : (get_all_jejemon_words lex).isEmpty = true
  · have hnil : get_all_jejemon_words lex = [] := by
      cases h : get_all_jejemon_words lex with
      | nil => rfl
      | cons a l => rw [h] at hk; exact absurd hk (by simp)
    rw [hnil]
    simp only [List.isEmpty_nil, Bool.not_true, Bool.false_eq_true, if_false]
    show none = if (FuzzyMatcher.find_best_match w []).2 > 6/10 then _ else none
    rw [if_neg (by norm_num [FuzzyMatcher.find_best_match])]
  · simp [hk]

/-! ### Claim theorems -/
/-- C8: `EditDistance.calculate` is symmetric and zero on identical
strings; `EditDistance.similarity a b` equals
`1 - calculate a b / max |a| |b|` whenever the maximum length is positive
(and is `1` when both strings are empty, so in particular
`similarity "" "" = 1`); and similarity always lies in `[0, 1]`. -/
theorem edit_distance_properties :
    (∀ a b : String, EditDistance.calculate a b = EditDistance.calculate b a) ∧
    (∀ a : String, EditDistance.calculate a a = 0) ∧
    (∀ a b : String, EditDistance.similarity a b =
      if max a.length b.length = 0 then 1
      else 1 - (EditDistance.calculate a b : ℚ) / ((max a.length b.length : ℕ) : ℚ)) ∧
    EditDistance.similarity "" "" = 1 ∧
    (∀ a b : String, 0 ≤ EditDistance.similarity a b ∧ EditDistance.similarity a b ≤ 1) := by
  refine ⟨EditDistance.calculate_comm, EditDistance.calculate_self, ?_,
    by norm_num [EditDistance.similarity],
    fun a b => ⟨EditDistance.similarity_nonneg a b, EditDistance.similarity_le_one a b⟩⟩
  intro a b
  by_cases h : a = "" ∧ b = ""
  · obtain ⟨ha, hb⟩ := h
    subst ha
    subst hb
    norm_num [EditDistance.similarity]
  · have hmax : max a.length b.length ≠ 0 := by
      rcases not_and_or.mp h with ha | hb
      · have := str_length_ne_zero ha
        omega
      · have := str_length_ne_zero hb
        omega
    simp only [EditDistance.similarity, if_neg h, if_neg hmax]

/-- C3: `normalize_text` returns all five staged fields — the original
text, the punctuation-evaluated text, the character-replaced text, the
space-joined token list and the space-joined per-token normalization — and
the token list behind the `tokenized` field and the per-token-normalized
list behind the `normalized` field have the same length by construction. -/
theorem normalize_text_stages (st : NormState) (text : String) :
    (normalize_text st text).original = text ∧
    (normalize_text st text).punctuation_evaluated =
      apply_punctuation_evaluation_to_text st.lex text ∧
    (normalize_text st text).character_replaced =
      apply_character_replacements_to_text st
        (apply_punctuation_evaluation_to_text st.lex text) ∧
    (normalize_text st text).tokenized =
      detokenize (tokenize (apply_character_replacements_to_text st
        (apply_punctuation_evaluation_to_text st.lex text))) ∧
    (normalize_text st text).normalized =
      detokenize ((tokenize (apply_character_replacements_to_text st
        (apply_punctuation_evaluation_to_text st.lex text))).map (normalize_word st.lex)) ∧
    (tokenize (apply_character_replacements_to_text st
        (apply_punctuation_evaluation_to_text st.lex text))).length =
      ((tokenize (apply_character_replacements_to_text st
        (apply_punctuation_evaluation_to_text st.lex text))).map
          (normalize_word st.lex)).length :=
  ⟨rfl, rfl, rfl, rfl, rfl, (List.length_map _ _).symm⟩

/-- C4: `_should_apply_character_replacement` returns `false` exactly when
the word is canonical, has a (truthy) lexicon mapping, is all digits with
length at least 3, matches one of the numeric-format patterns, or matches
one of the formal alphanumeric-code patterns; all other words are
eligible, in particular short all-digit words and short mixed
alphanumerics under an empty rule set. -/
theorem eligibility_spec :
    (∀ (lex : LexState) (w : String),
      should_apply_character_replacement lex w =
        !(is_in_words_txt lex w || pyTruthy (get_normal_word lex w) ||
          (pyIsDigit w && decide (3 ≤ w.length)) || numberPats w.data || codePats w.data)) ∧
    should_apply_character_replacement emptyLex "22" = true ∧
    should_apply_character_replacement emptyLex "7" = true ∧
    should_apply_character_replacement emptyLex "b4" = true ∧
    should_apply_character_replacement emptyLex "e2" = true := by
  refine ⟨?_, by decide, by decide, by decide, by decide⟩
  intro lex w
  simp only [should_apply_character_replacement]
  cases is_in_words_txt lex w <;>
    cases pyTruthy (get_normal_word lex w) <;>
      cases pyIsDigit w && decide (3 ≤ w.length) <;>
        cases numberPats w.data <;>
          cases codePats w.data <;> simp

/-- C5: `apply_character_replacements` behaves as described — variants are
processed longest to shortest, a single-character variant is replaced at
every case-insensitive occurrence, a multi-character variant only rewrites
a whole-word match, a variant equal to its own canonical letter is never
applied (so a table of such variants with no replacement entries is a
no-op), and the replacement-table entries are applied afterwards as
case-insensitive substring replacements; with variant table
`{"e": ["3"]}` alone, `"h3llo"` becomes `"hello"`. -/
theorem apply_character_replacements_spec :
    (∀ (lex : LexState) (word : String),
      apply_character_replacements lex word = applyCharReplClaim lex word) ∧
    (∀ (v word : String),
      apply_character_replacements ⟨[], [], [(v, v)], []⟩ word = word) ∧
    apply_character_replacements lexE3 "h3llo" = "hello" := by
  refine ⟨fun lex word => rfl, ?_, by decide⟩
  intro v word
  simp [apply_character_replacements, sortVariants, insVariant]

/-- C7: `lemmatize` is a deterministic single pass: it strips the first
matching prefix key of the ordered prefix table (the alternative spellings
attached to a key never affect the result), then the first matching
suffix that leaves at least one character, and returns the original word
when the final candidate has fewer than two characters; there is no
backtracking or fixed-point iteration. -/
theorem lemmatize_spec (word : String) : lemmatize word = lemmatizeClaim word := by
  unfold lemmatize lemmatizeClaim
  have h : stripPre prefixRules word = stripPreKeys prefixKeys word := by
    simp only [prefixRules, prefixKeys, List.map, stripPre, stripPreKeys]
  rw [h]

theorem punct_match4 (om mm : Option String) (w : String) :
    (if pyTruthy om && !pyTruthy mm then (om.getD "", false)
     else if pyTruthy mm && !pyTruthy om then (mm.getD "", true)
     else if pyTruthy om && pyTruthy mm then (mm.getD "", true)
     else (w, false)) =
    (match truthyOpt om, truthyOpt mm with
     | some o, none => (o, false)
     | none, some m => (m, true)
     | some _, some m => (m, true)
     | none, none => (w, false)) := by
  cases om with
  | none =>
    cases mm with
    | none => rfl
    | some v => by_cases hv : v = "" <;> simp [pyTruthy, truthyOpt, hv]
  | some u =>
    by_cases hu : u = ""
    · cases mm with
      | none => simp [pyTruthy, truthyOpt, hu]
      | some v => by_cases hv : v = "" <;> simp [pyTruthy, truthyOpt, hu, hv]
    · cases mm with
      | none => simp [pyTruthy, truthyOpt, hu]
      | some v => by_cases hv : v = "" <;> simp [pyTruthy, truthyOpt, hu, hv]

/-- C2 (counterexample): on a word with no meaningful punctuation the code
returns early, before any lexicon lookup; with the mapping
`hello ↦ hi` the code returns `("hello", false)` while the claimed
precedence table returns `("hi", true)`. -/
theorem evaluate_punctuation_counterexample :
    evaluate_punctuation_value lexHello "hello" ≠ evalPunctClaim lexHello "hello" := by
  decide

/-- C2 (amended): `_evaluate_punctuation_value` returns the word unchanged
with flag `false` when it contains no meaningful punctuation character;
otherwise it strips the fixed ordered marker list, looks both words up,
and resolves exactly by the claimed precedence. -/
theorem evaluate_punctuation_amended (lex : LexState) (word : String) :
    evaluate_punctuation_value lex word =
      if !(meaningfulPunct.any fun p => word.data.contains p) then (word, false)
      else evalPunctClaim lex word := by
  by_cases hg : (meaningfulPunct.any fun p => word.data.contains p) = true
  · have hg' : (!(meaningfulPunct.any fun p => word.data.contains p)) = false := by
      rw [hg]
      rfl
    simp only [evaluate_punctuation_value, evalPunctClaim, hg', Bool.false_eq_true, if_false]
    exact punct_match4 (get_normal_word lex word)
      (get_normal_word lex (stripMarkers punctPats word)) word
  · simp only [Bool.not_eq_true] at hg
    have hg' : (!(meaningfulPunct.any fun p => word.data.contains p)) = true := by
      rw [hg]
      rfl
    simp only [evaluate_punctuation_value, hg', if_true]

/-- C9: `find_best_match` scans linearly, updating the best only on a
strictly greater similarity, so it returns as score the maximum similarity
over the candidates (0 for an empty list or when nothing scores above 0,
and then the empty string as match) and as match the earliest candidate
attaining that score; on `("helo", ["hello", "world"])` it returns
`"hello"` with a score strictly greater than 0.6. -/
theorem find_best_match_spec :
    (∀ (w : String) (cs : List String),
      (FuzzyMatcher.find_best_match w cs).2 =
        cs.foldr (fun c r => max (EditDistance.similarity w c) r) 0 ∧
      (FuzzyMatcher.find_best_match w cs).1 =
        (if (FuzzyMatcher.find_best_match w cs).2 = 0 then ""
         else (cs.find? fun c =>
           decide (EditDistance.similarity w c =
             (FuzzyMatcher.find_best_match w cs).2)).getD "")) ∧
    (FuzzyMatcher.find_best_match "helo" ["hello", "world"]).1 = "hello" ∧
    (FuzzyMatcher.find_best_match "helo" ["hello", "world"]).2 > 6/10 := by
  have hs1 : EditDistance.similarity "helo" "hello" = 4/5 := by
    have hc1 : EditDistance.calculate "helo" "hello" = 1 := by decide
    have h1 : "helo".length = 4 := by decide
    have h2 : "hello".length = 5 := by decide
    unfold EditDistance.similarity
    rw [if_neg (by decide)]
    simp only [hc1, h1, h2]
    norm_num
  have hs2 : EditDistance.similarity "helo" "world" = 1/5 := by
    have hc2 : EditDistance.calculate "helo" "world" = 4 := by decide
    have h1 : "helo".length = 4 := by decide
    have h2 : "world".length = 5 := by decide
    unfold EditDistance.similarity
    rw [if_neg (by decide)]
    simp only [hc2, h1, h2]
    norm_num
  have hfold : FuzzyMatcher.find_best_match "helo" ["hello", "world"] =
      ("hello", EditDistance.similarity "helo" "hello") := by
    unfold FuzzyMatcher.find_best_match
    simp only [List.foldl_cons, List.foldl_nil]
    rw [show FuzzyMatcher.fbmStep "helo" ("", 0) "hello" =
        ("hello", EditDistance.similarity "helo" "hello") from by
      unfold FuzzyMatcher.fbmStep
      rw [if_pos (by rw [hs1]; norm_num)]]
    unfold FuzzyMatcher.fbmStep
    rw [if_neg (by rw [hs1, hs2]; norm_num)]
  refine ⟨?_, by rw [hfold], by rw [hfold]; rw [hs1]; norm_num⟩
  intro w cs
  constructor
  · exact FuzzyMatcher.fbm_snd w cs "" 0
  · by_cases h0 : (FuzzyMatcher.find_best_match w cs).2 = 0
    · rw [if_pos h0]
      have hstay := FuzzyMatcher.fbm_stay w cs "" 0 h0
      show (cs.foldl (FuzzyMatcher.fbmStep w) ("", 0)).1 = ""
      rw [hstay]
    · rw [if_neg h0]
      have hge : (0 : ℚ) ≤ (FuzzyMatcher.find_best_match w cs).2 := by
        rw [show (FuzzyMatcher.find_best_match w cs).2 =
          cs.foldr (fun c r => max (EditDistance.similarity w c) r) 0 from
          FuzzyMatcher.fbm_snd w cs "" 0]
        exact FuzzyMatcher.le_foldr_max w cs 0
      have hpos : (0 : ℚ) < (FuzzyMatcher.find_best_match w cs).2 :=
        lt_of_le_of_ne hge fun e => h0 e.symm
      have hf := FuzzyMatcher.fbm_fst_find w cs "" 0 hpos
      rw [show (cs.find? fun c =>
          decide (EditDistance.similarity w c = (FuzzyMatcher.find_best_match w cs).2)) =
          some (FuzzyMatcher.find_best_match w cs).1 from hf]
      rfl

/-- C6: `get_normalization_confidence` is 0 on identical strings, 1/2 when
the two token counts differ, 0 when there are no tokens at all, and
otherwise the mean over aligned token pairs of 1 for an unchanged token
and the edit-distance similarity for a changed one; the result always lies
in `[0, 1]`, and in particular `confidence("abc","abc") = 0` and
`confidence("a b","abc") = 1/2`. -/
theorem confidence_spec :
    (∀ o n : String, get_normalization_confidence o n =
      if o = n then 0
      else if (tokenize o).length ≠ (tokenize n).length then 1/2
      else if (tokenize o).isEmpty then 0
      else (((tokenize o).zip (tokenize n)).map fun p =>
        if p.1 = p.2 then (1 : ℚ) else EditDistance.similarity p.1 p.2).sum /
          ((tokenize o).length : ℚ)) ∧
    (∀ o n : String, 0 ≤ get_normalization_confidence o n ∧
      get_normalization_confidence o n ≤ 1) ∧
    get_normalization_confidence "abc" "abc" = 0 ∧
    get_normalization_confidence "a b" "abc" = 1/2 := by
  refine ⟨fun o n => rfl, ?_, ?_, ?_⟩
  · intro o n
    unfold get_normalization_confidence
    by_cases h1 : o = n
    · simp [h1]
    · rw [if_neg h1]
      by_cases h2 : (tokenize o).length ≠ (tokenize n).length
      · rw [if_pos h2]
        norm_num
      · rw [if_neg h2]
        by_cases h3 : (tokenize o).isEmpty = true
        · rw [if_pos h3]
          norm_num
        · rw [if_neg h3]
          set l : List ℚ := ((tokenize o).zip (tokenize n)).map fun p =>
            if p.1 = p.2 then (1 : ℚ) else EditDistance.similarity p.1 p.2 with hl
          have hb : ∀ x ∈ l, 0 ≤ x ∧ x ≤ 1 := by
            intro x hx
            rw [hl] at hx
            obtain ⟨p, _, hp⟩ := List.mem_map.mp hx
            by_cases hpe : p.1 = p.2
            · rw [if_pos hpe] at hp
              rw [← hp]
              norm_num
            · rw [if_neg hpe] at hp
              rw [← hp]
              exact ⟨EditDistance.similarity_nonneg _ _, EditDistance.similarity_le_one _ _⟩
          have hsum0 : 0 ≤ l.sum := List.sum_nonneg fun x hx => (hb x hx).1
          have hsum1 : l.sum ≤ (l.length : ℚ) := sum_le_length l fun x hx => (hb x hx).2
          have h2' : (tokenize o).length = (tokenize n).length := not_ne_iff.mp h2
          have hllen : l.length = (tokenize o).length := by
            rw [hl]
            simp [List.length_zip, h2']
          have hkpos : 0 < (tokenize o).length := by
            cases ht : tokenize o with
            | nil =>
              rw [ht] at h3
              exact absurd rfl h3
            | cons a t => simp
          have hkQ : (0 : ℚ) < ((tokenize o).length : ℚ) := by exact_mod_cast hkpos
          constructor
          · exact div_nonneg hsum0 hkQ.le
          · rw [div_le_one hkQ]
            rw [hllen] at hsum1
            exact hsum1
  · unfold get_normalization_confidence
    rw [if_pos rfl]
  · unfold get_normalization_confidence
    rw [if_neg (by decide), if_pos (by decide)]

/-- C1: `normalize_word` tries the resolution steps in the claimed order
and returns the first success: canonical membership, direct lexicon
lookup, eligible character replacement with re-lookup of the rewritten
word, fuzzy match over all slang keys (accepted when the best score is
strictly greater than 0.6 and the key has a lexicon mapping), then — when
the lemma differs — direct lookup and the same fuzzy rule on the lemma,
and finally the original word unchanged. -/
theorem normalize_word_resolution (lex : LexState) (word : String) :
    normalize_word lex word = normalizeWordClaim lex word := by
  unfold normalize_word normalizeWordClaim
  by_cases h0 : is_in_words_txt lex word = true
  · simp [h0]
  · simp only [Bool.not_eq_true] at h0
    simp only [h0, Bool.false_eq_true, if_false]
    cases htg : truthyGet lex word with
    | some n => rfl
    | none => simp only [charStep_eq lex word htg, fuzzyStep_eq]

/-- C10: tokenization is stable under detokenization —
`tokenize (detokenize (tokenize text))` equals `tokenize text` — and every
produced token is nonempty, begins and ends with a word character, and
contains no whitespace (which is why space-joining and re-tokenizing
reproduces the token list exactly). -/
theorem tokenize_detokenize_stable (text : String) :
    tokenize (detokenize (tokenize text)) = tokenize text ∧
    (tokenizeL text.data).all (fun t => !t.isEmpty && isWordChar (t.headD ' ') &&
      isWordChar (t.getLastD ' ') && t.all fun c => !c.isWhitespace) = true := by
  constructor
  · have hts := tokenizeL_inv text.data
    have hmapdata : (tokenize text).map String.data = tokenizeL text.data := by
      show ((tokenizeL text.data).map String.mk).map String.data = tokenizeL text.data
      rw [List.map_map]
      calc (tokenizeL text.data).map (String.data ∘ String.mk)
          = (tokenizeL text.data).map id := List.map_congr_left fun t _ => rfl
        _ = tokenizeL text.data := List.map_id _
    show (tokenizeL (joinSp ((tokenize text).map String.data))).map String.mk = tokenize text
    rw [hmapdata, tokenizeL_joinSp (tokenizeL text.data) hts]
    rfl
  · rw [List.all_eq_true]
    intro t ht
    obtain ⟨hne, hcl, hh, hl, _⟩ := tokenInv_elim t (tokenizeL_inv text.data t ht)
    simp only [Bool.and_eq_true]
    refine ⟨⟨⟨?_, hh⟩, hl⟩, ?_⟩
    · cases t with
      | nil => exact absurd rfl hne
      | cons a l => rfl
    · rw [List.all_eq_true]
      intro c hc
      simp [class_not_ws c (hcl c hc)]

end Jejemonly
